import Mathlib

/-!
Verification of the tenant user record store (`tenant/storage_user.go`).

The store keeps two logical tables inside a caller-supplied transaction:
a primary table `usersv1` mapping an encoded identifier to a serialized
user record, and a name index `userindexv1` mapping a user name to an
encoded identifier.  We embed the store shallowly: buckets become
association lists, the primary bucket is kept in ascending key order
(the ordered key-value collaborator guarantees cursor iteration in
sorted key order, and the 16-digit big-endian hex encoding of a uint64
identifier is strictly monotone, so we represent an encoded identifier
by the identifier value itself), and each operation becomes a pure
function returning its result together with the post-state of the
transaction.
-/

/-- A user record (`influxdb.User`): identifier, unique name, status.
The identifier is a `uint64`; `ID.Encode` fails exactly on the invalid
(zero) identifier, and on valid identifiers it is injective and strictly
monotone, so we keep the raw numeral as the encoded form. -/
structure User where
  id : Nat
  name : String
  status : String
  deriving DecidableEq

/-- `influxdb.UserUpdate`: an optional new name and an optional new status. -/
structure UserUpdate where
  name : Option String
  status : Option String
  deriving DecidableEq

/-- An opaque failure reported by the key-value collaborator (anything
other than its not-found signal). -/
structure KVErr where
  msg : String
  deriving DecidableEq

/-- A stored payload of the primary table: either the serialization of a
user record, or bytes that `json.Unmarshal` rejects. -/
inductive Val where
  | user (u : User)
  | corrupt
  deriving DecidableEq

/-- Modelled from the spec: the closed set of error values produced by the
store's error constructors (`error_user.go` is outside the excerpt; §7 lists
the kinds and the constructor names fix which value each call site builds).
`errInvalidID` is the raw error returned by `ID.Encode`/`ID.Decode` itself. -/
inductive StoreErr where
  | errUserNotFound
  | notUniqueErr
  | errInvalidID
  | invalidUserIDErr
  | corruptUserErr
  | corruptIDErr
  | unprocessableUserErr
  | internalServiceErr
  deriving DecidableEq

/-- Modelled from the spec: the error kinds of §7, the classification a
caller can observe. -/
inductive ErrKind where
  | notFound
  | notUnique
  | invalidIdentifier
  | corruptRecord
  | corruptIdentifier
  | unprocessableRecord
  | internalService
  deriving DecidableEq

/-- Modelled from the spec: which §7 kind each error value belongs to.
Both the raw `ID.Encode` failure and its `InvalidUserIDError` wrapper are
the *invalid identifier* condition ("an identifier could not be
encoded/decoded to its binary form"). -/
def errKind : StoreErr → ErrKind
  | StoreErr.errUserNotFound => ErrKind.notFound
  | StoreErr.notUniqueErr => ErrKind.notUnique
  | StoreErr.errInvalidID => ErrKind.invalidIdentifier
  | StoreErr.invalidUserIDErr => ErrKind.invalidIdentifier
  | StoreErr.corruptUserErr => ErrKind.corruptRecord
  | StoreErr.corruptIDErr => ErrKind.corruptIdentifier
  | StoreErr.unprocessableUserErr => ErrKind.unprocessableRecord
  | StoreErr.internalServiceErr => ErrKind.internalService

/-- `influxdb.ID.Encode`: fails (with the raw invalid-identifier error) on
the invalid identifier `0`, otherwise yields the encoded key. -/
def encodeID (id : Nat) : Except StoreErr Nat :=
  if id = 0 then Except.error StoreErr.errInvalidID else Except.ok id

/-- `influxdb.ID.Decode` on an index value: fails on bytes that do not
denote a valid identifier (modelled by `0`). -/
def decodeID (n : Nat) : Except StoreErr Nat :=
  if n = 0 then Except.error StoreErr.errInvalidID else Except.ok n

/-- `unmarshalUser`: JSON decoding of a stored payload; undecodable bytes
are a corrupt-record condition (`ErrCorruptUser`). -/
def unmarshalUser : Val → Except StoreErr User
  | Val.user u => Except.ok u
  | Val.corrupt => Except.error StoreErr.corruptUserErr

/-- `marshalUser`: JSON encoding of a user record.  `json.Marshal` cannot
fail on this record type (plain scalar fields), so the
`ErrUnprocessableUser` branch of the source is vacuous; the `Except`
shape is kept. -/
def marshalUser (u : User) : Except StoreErr Val :=
  Except.ok (Val.user u)

/-- Point lookup in the primary bucket. -/
def bget : List (Nat × Val) → Nat → Option Val
  | [], _ => none
  | p :: rest, k => if p.1 = k then some p.2 else bget rest k

/-- `Put` into the primary bucket: the ordered collaborator stores keys in
ascending order, so insertion keeps the list sorted (replacing an equal
key). -/
def bput : List (Nat × Val) → Nat → Val → List (Nat × Val)
  | [], k, v => [(k, v)]
  | p :: rest, k, v =>
    if k < p.1 then (k, v) :: p :: rest
    else if k = p.1 then (k, v) :: rest
    else p :: bput rest k v

/-- `Delete` from the primary bucket. -/
def bdel : List (Nat × Val) → Nat → List (Nat × Val)
  | [], _ => []
  | p :: rest, k => if p.1 = k then bdel rest k else p :: bdel rest k

/-- Point lookup in the name index. -/
def iget : List (String × Nat) → String → Option Nat
  | [], _ => none
  | p :: rest, n => if p.1 = n then some p.2 else iget rest n

/-- `Delete` from the name index. -/
def idel : List (String × Nat) → String → List (String × Nat)
  | [], _ => []
  | p :: rest, n => if p.1 = n then idel rest n else p :: idel rest n

/-- `Put` into the name index (replace the entry for the key, if any; no
cursor ever runs over the index, so its entry order is irrelevant). -/
def iput (l : List (String × Nat)) (n : String) (v : Nat) : List (String × Nat) :=
  (n, v) :: idel l n

/-- The two tables held by the caller's transaction: the primary bucket
`usersv1` (encoded id to payload, ascending keys) and the name index
`userindexv1` (name to encoded id). -/
structure Store where
  users : List (Nat × Val)
  index : List (String × Nat)
  deriving DecidableEq

/-- The state with both buckets empty. -/
def emptyStore : Store := Store.mk [] []

/-- The outcome of the index lookup inside `uniqueUserName`: the entry's
value, the collaborator's not-found signal, or any other failure. -/
inductive LookupResult where
  | found (v : Nat)
  | notFound
  | failure (e : KVErr)
  deriving DecidableEq

/-- The classification performed by `uniqueUserName` on its index lookup:
not-found means the name is unique; a present entry means
`kv.NotUniqueError`; any other failure is wrapped by `ErrUnprocessableUser`
(the source's comment says "some sort of internal server error" but the
constructor it calls builds the unprocessable-record error). -/
def uniqueOutcome : LookupResult → Except StoreErr Unit
  | LookupResult.notFound => Except.ok ()
  | LookupResult.found _ => Except.error StoreErr.notUniqueErr
  | LookupResult.failure _ => Except.error StoreErr.unprocessableUserErr

/-- The index lookup of a well-behaved collaborator: an entry or not-found. -/
def lookupIndex (idx : List (String × Nat)) (n : String) : LookupResult :=
  match iget idx n with
  | some v => LookupResult.found v
  | none => LookupResult.notFound

/-- `Store.uniqueUserName` against a well-behaved collaborator. -/
def uniqueUserName (s : Store) (uname : String) : Except StoreErr Unit :=
  uniqueOutcome (lookupIndex s.index uname)

/-- `Store.GetUser`: encode the id (failure wrapped as
`InvalidUserIDError`), look up the primary bucket (absent means
`ErrUserNotFound`), decode the payload. -/
def getUser (s : Store) (id : Nat) : Except StoreErr User :=
  match encodeID id with
  | Except.error _ => Except.error StoreErr.invalidUserIDErr
  | Except.ok encodedID =>
    match bget s.users encodedID with
    | none => Except.error StoreErr.errUserNotFound
    | some v => unmarshalUser v

/-- `Store.GetUserByName`: look up the index (absent means
`ErrUserNotFound`), decode the stored identifier (failure means
`ErrCorruptID`), then delegate to `GetUser`. -/
def getUserByName (s : Store) (n : String) : Except StoreErr User :=
  match iget s.index n with
  | none => Except.error StoreErr.errUserNotFound
  | some uid =>
    match decodeID uid with
    | Except.error _ => Except.error StoreErr.corruptIDErr
    | Except.ok id => getUser s id

/-- `Store.CreateUser`: encode the id, check name uniqueness, serialize,
then write the index entry and the primary entry.  The pair carries the
operation's result and the transaction state at return. -/
def createUser (s : Store) (u : User) : Except StoreErr Unit × Store :=
  match encodeID u.id with
  | Except.error _ => (Except.error StoreErr.invalidUserIDErr, s)
  | Except.ok encodedID =>
    match uniqueUserName s u.name with
    | Except.error e => (Except.error e, s)
    | Except.ok _ =>
      match marshalUser u with
      | Except.error e => (Except.error e, s)
      | Except.ok v =>
        (Except.ok (), Store.mk (bput s.users encodedID v) (iput s.index u.name encodedID))

/-- Apply the optional status field of a patch (`upd.Status != nil`). -/
def applyStatus (u : User) (upd : UserUpdate) : User :=
  match upd.status with
  | some st => User.mk u.id u.name st
  | none => u

/-- `Store.UpdateUser`: encode the id (the raw encoding error is returned
unwrapped), load the record, and if the patch carries a name run the
uniqueness check, delete the old index entry and insert the new one;
apply the status, re-serialize and overwrite the primary entry. -/
def updateUser (s : Store) (id : Nat) (upd : UserUpdate) : Except StoreErr User × Store :=
  match encodeID id with
  | Except.error e => (Except.error e, s)
  | Except.ok encodedID =>
    match getUser s id with
    | Except.error e => (Except.error e, s)
    | Except.ok u =>
      match upd.name with
      | some newName =>
        match uniqueUserName s newName with
        | Except.error e => (Except.error e, s)
        | Except.ok _ =>
          let idx2 := iput (idel s.index u.name) newName encodedID
          let u2 := applyStatus (User.mk u.id newName u.status) upd
          match marshalUser u2 with
          | Except.error e => (Except.error e, Store.mk s.users idx2)
          | Except.ok v => (Except.ok u2, Store.mk (bput s.users encodedID v) idx2)
      | none =>
        let u2 := applyStatus u upd
        match marshalUser u2 with
        | Except.error e => (Except.error e, s)
        | Except.ok v => (Except.ok u2, Store.mk (bput s.users encodedID v) s.index)

/-- `Store.DeleteUser`: load the record (to recover its name), encode the
id, then delete the index entry and the primary entry. -/
def deleteUser (s : Store) (id : Nat) : Except StoreErr Unit × Store :=
  match getUser s id with
  | Except.error e => (Except.error e, s)
  | Except.ok u =>
    match encodeID id with
    | Except.error _ => (Except.error StoreErr.invalidUserIDErr, s)
    | Except.ok encodedID =>
      (Except.ok (), Store.mk (bdel s.users encodedID) (idel s.index u.name))

/-- `influxdb.FindOptions`: pagination parameters (Go `int` fields). -/
structure FindOptions where
  limit : Int
  offset : Int
  deriving DecidableEq

/-- `influxdb.DefaultPageSize`. -/
def defaultPageSize : Int := 20

/-- `influxdb.MaxPageSize`. -/
def maxPageSize : Int := 100

/-- The limit clamp of `ListUsers`: a limit above the maximum page size or
equal to zero becomes the maximum page size. -/
def clampLimit (l : Int) : Int :=
  if maxPageSize < l ∨ l = 0 then maxPageSize else l

/-- The scan loop of `ListUsers`: while fewer than `offset` entries have
been skipped (and `offset` is nonzero) skip and count; otherwise decode,
silently dropping undecodable payloads, and stop once the accumulated
record count reaches `limit`.  `count` and `usLen` are the loop's counter
and the accumulated length. -/
def listScan : List (Nat × Val) → Int → Int → Int → Int → List User
  | [], _, _, _, _ => []
  | p :: rest, count, usLen, offset, limit =>
    if offset ≠ 0 ∧ count < offset then
      listScan rest (count + 1) usLen offset limit
    else
      match unmarshalUser p.2 with
      | Except.error _ => listScan rest count usLen offset limit
      | Except.ok u =>
        if usLen + 1 ≥ limit then [u]
        else u :: listScan rest count (usLen + 1) offset limit

/-- `Store.ListUsers` against a forward cursor that yields `entries` in
the bucket's key order and reports `cerr` from `Err()` at the end of the
scan: missing options default to the default page size, the limit is
clamped, and the terminal cursor error is returned alongside the records. -/
def listUsersCursor (entries : List (Nat × Val)) (cerr : Option KVErr)
    (opt : List FindOptions) : List User × Option KVErr :=
  let o := match opt with
    | [] => FindOptions.mk defaultPageSize 0
    | o :: _ => o
  (listScan entries 0 0 o.offset (clampLimit o.limit), cerr)

/-- `Store.ListUsers` against a well-behaved collaborator: the cursor
yields exactly the primary bucket's entries and reports no error. -/
def listUsers (s : Store) (opt : List FindOptions) : List User × Option KVErr :=
  listUsersCursor s.users none opt

/-- The (name, encoded id) pair derivable from one primary entry, when its
payload decodes. -/
def decodePair : Nat × Val → Option (String × Nat)
  | (k, Val.user u) => some (u.name, k)
  | (_, Val.corrupt) => none

/-- The record derivable from one primary entry, when its payload decodes. -/
def decodeVal : Nat × Val → Option User
  | (_, Val.user u) => some u
  | (_, Val.corrupt) => none

/-- All (name, encoded id) pairs derivable by decoding the primary
table's entries. -/
def primaryPairs (l : List (Nat × Val)) : List (String × Nat) :=
  l.filterMap decodePair

/-- A primary entry is coherent: its payload decodes to a record with a
valid identifier whose encoding is the entry's key. -/
def entryOk : Nat × Val → Prop
  | (k, Val.user u) => u.id ≠ 0 ∧ k = u.id
  | (_, Val.corrupt) => False

instance entryOk.decidable : (p : Nat × Val) → Decidable (entryOk p)
  | (k, Val.user u) => inferInstanceAs (Decidable (u.id ≠ 0 ∧ k = u.id))
  | (_, Val.corrupt) => inferInstanceAs (Decidable False)

/-- Well-formedness of a transaction state: primary keys strictly
ascending, every primary entry coherent, index names unique, and the
index's pair set equal to the pair set derived from the primary table
(invariant I1). -/
def WF (s : Store) : Prop :=
  s.users.Pairwise (fun p q => p.1 < q.1) ∧
  (∀ p ∈ s.users, entryOk p) ∧
  (s.index.map Prod.fst).Nodup ∧
  (∀ q ∈ s.index, q ∈ primaryPairs s.users) ∧
  (∀ q ∈ primaryPairs s.users, q ∈ s.index)

instance WF.decidable (s : Store) : Decidable (WF s) := by
  unfold WF
  infer_instance

/-- States reachable from the empty store by successful create, update
and delete operations. -/
inductive ReachableOps : Store → Prop where
  | init : ReachableOps emptyStore
  | create (s : Store) (u : User) (s' : Store) : ReachableOps s →
      createUser s u = (Except.ok (), s') → ReachableOps s'
  | update (s : Store) (id : Nat) (upd : UserUpdate) (u : User) (s' : Store) : ReachableOps s →
      updateUser s id upd = (Except.ok u, s') → ReachableOps s'
  | delete (s : Store) (id : Nat) (s' : Store) : ReachableOps s →
      deleteUser s id = (Except.ok (), s') → ReachableOps s'

/-- States reachable from the empty store by successful operations in
which every create was invoked with an identifier absent from the
primary table at the time of the call. -/
inductive ReachableFresh : Store → Prop where
  | init : ReachableFresh emptyStore
  | create (s : Store) (u : User) (s' : Store) : ReachableFresh s →
      bget s.users u.id = none →
      createUser s u = (Except.ok (), s') → ReachableFresh s'
  | update (s : Store) (id : Nat) (upd : UserUpdate) (u : User) (s' : Store) : ReachableFresh s →
      updateUser s id upd = (Except.ok u, s') → ReachableFresh s'
  | delete (s : Store) (id : Nat) (s' : Store) : ReachableFresh s →
      deleteUser s id = (Except.ok (), s') → ReachableFresh s'

/-! Lemmas about the bucket primitives. -/

theorem bget_eq_none (l : List (Nat × Val)) (k : Nat) :
    bget l k = none ↔ ∀ p ∈ l, p.1 ≠ k := by
  induction l with
  | nil => simp [bget]
  | cons p rest ih =>
    by_cases h : p.1 = k
    · simp [bget, h]
    · simp [bget, h, ih]

theorem bget_mem (l : List (Nat × Val)) (k : Nat) (v : Val)
    (h : bget l k = some v) : (k, v) ∈ l := by
  induction l with
  | nil => simp [bget] at h
  | cons p rest ih =>
    obtain ⟨p1, p2⟩ := p
    by_cases hk : p1 = k
    · simp only [bget, if_pos hk] at h
      subst hk
      simp_all
    · simp only [bget] at h
      rw [if_neg hk] at h
      exact List.mem_cons_of_mem _ (ih h)

theorem bget_bput (l : List (Nat × Val)) (k k' : Nat) (v : Val) :
    bget (bput l k v) k' = if k = k' then some v else bget l k' := by
  induction l with
  | nil =>
    by_cases h : k = k' <;> simp [bput, bget, h]
  | cons p rest ih =>
    obtain ⟨p1, p2⟩ := p
    rcases Nat.lt_trichotomy k p1 with hlt | heq | hgt
    · rw [bput, if_pos hlt]
      by_cases h : k = k'
      · simp [bget, h]
      · simp [bget, h]
    · rw [bput, if_neg (by omega), if_pos heq]
      by_cases h : k = k'
      · simp [bget, h]
      · have hp : ¬ p1 = k' := by omega
        simp [bget, h, hp]
    · rw [bput, if_neg (by omega), if_neg (by omega)]
      by_cases hp : p1 = k'
      · have h : ¬ k = k' := by omega
        simp [bget, hp, h]
      · simp [bget, hp, ih]

theorem mem_bput (l : List (Nat × Val)) (k : Nat) (v : Val) (x : Nat × Val)
    (hs : l.Pairwise (fun p q => p.1 < q.1)) :
    x ∈ bput l k v ↔ x = (k, v) ∨ (x ∈ l ∧ x.1 ≠ k) := by
  induction l with
  | nil => simp [bput]
  | cons p rest ih =>
    rw [List.pairwise_cons] at hs
    have hrest := ih hs.2
    rcases Nat.lt_trichotomy k p.1 with hlt | heq | hgt
    · rw [bput, if_pos hlt]
      simp only [List.mem_cons]
      have f1 : x = p → x.1 ≠ k := by
        intro h
        subst h
        omega
      have f2 : x ∈ rest → x.1 ≠ k := by
        intro h
        have := hs.1 x h
        omega
      tauto
    · rw [bput, if_neg (by omega), if_pos heq]
      simp only [List.mem_cons]
      have f1 : x = p → x.1 = k := by
        intro h
        subst h
        omega
      have f2 : x ∈ rest → x.1 ≠ k := by
        intro h
        have := hs.1 x h
        omega
      constructor
      · intro h
        rcases h with h | h
        · exact Or.inl h
        · exact Or.inr ⟨Or.inr h, f2 h⟩
      · intro h
        rcases h with h | ⟨h | h, hne⟩
        · exact Or.inl h
        · exact absurd (f1 h) hne
        · exact Or.inr h
    · rw [bput, if_neg (by omega), if_neg (by omega)]
      simp only [List.mem_cons, hrest]
      have f1 : x = p → x.1 ≠ k := by
        intro h
        subst h
        omega
      tauto

theorem bput_pairwise (l : List (Nat × Val)) (k : Nat) (v : Val)
    (hs : l.Pairwise (fun p q => p.1 < q.1)) :
    (bput l k v).Pairwise (fun p q => p.1 < q.1) := by
  induction l with
  | nil => simp [bput]
  | cons p rest ih =>
    rw [List.pairwise_cons] at hs
    rcases Nat.lt_trichotomy k p.1 with hlt | heq | hgt
    · rw [bput, if_pos hlt]
      refine List.Pairwise.cons ?_ (List.Pairwise.cons hs.1 hs.2)
      intro q hq
      rcases List.mem_cons.mp hq with hq | hq
      · subst hq; exact hlt
      · have := hs.1 q hq
        omega
    · rw [bput, if_neg (by omega), if_pos heq]
      refine List.Pairwise.cons ?_ hs.2
      intro q hq
      have := hs.1 q hq
      omega
    · rw [bput, if_neg (by omega), if_neg (by omega)]
      refine List.Pairwise.cons ?_ (ih hs.2)
      intro q hq
      rcases (mem_bput rest k v q hs.2).mp hq with hq | ⟨hq, _⟩
      · subst hq; exact hgt
      · exact hs.1 q hq

theorem mem_bdel (l : List (Nat × Val)) (k : Nat) (x : Nat × Val) :
    x ∈ bdel l k ↔ x ∈ l ∧ x.1 ≠ k := by
  induction l with
  | nil => simp [bdel]
  | cons p rest ih =>
    by_cases h : p.1 = k
    · rw [bdel, if_pos h, ih]
      simp only [List.mem_cons]
      have f1 : x = p → x.1 = k := by
        intro hx
        subst hx
        exact h
      tauto
    · rw [bdel, if_neg h]
      simp only [List.mem_cons, ih]
      have f1 : x = p → x.1 ≠ k := by
        intro hx
        subst hx
        exact h
      tauto

theorem bget_bdel_self (l : List (Nat × Val)) (k : Nat) :
    bget (bdel l k) k = none := by
  rw [bget_eq_none]
  intro p hp
  exact ((mem_bdel l k p).mp hp).2

theorem bdel_pairwise (l : List (Nat × Val)) (k : Nat)
    (hs : l.Pairwise (fun p q => p.1 < q.1)) :
    (bdel l k).Pairwise (fun p q => p.1 < q.1) := by
  induction l with
  | nil => simp [bdel]
  | cons p rest ih =>
    rw [List.pairwise_cons] at hs
    by_cases h : p.1 = k
    · rw [bdel, if_pos h]; exact ih hs.2
    · rw [bdel, if_neg h]
      refine List.Pairwise.cons ?_ (ih hs.2)
      intro q hq
      exact hs.1 q ((mem_bdel rest k q).mp hq).1

theorem key_unique (l : List (Nat × Val)) (k : Nat) (v1 v2 : Val)
    (hs : l.Pairwise (fun p q => p.1 < q.1))
    (h1 : (k, v1) ∈ l) (h2 : (k, v2) ∈ l) : v1 = v2 := by
  induction l with
  | nil => simp at h1
  | cons p rest ih =>
    rw [List.pairwise_cons] at hs
    rcases List.mem_cons.mp h1 with h1 | h1 <;> rcases List.mem_cons.mp h2 with h2 | h2
    · rw [Prod.mk.injEq] at h1 h2
      rw [h1.2, h2.2]
    · exfalso
      have := hs.1 _ h2
      rw [Prod.mk.injEq] at h1
      simp only at this
      omega
    · exfalso
      have := hs.1 _ h1
      rw [Prod.mk.injEq] at h2
      simp only at this
      omega
    · exact ih hs.2 h1 h2

/-! Lemmas about the index primitives. -/

theorem iget_eq_none (l : List (String × Nat)) (n : String) :
    iget l n = none ↔ ∀ p ∈ l, p.1 ≠ n := by
  induction l with
  | nil => simp [iget]
  | cons p rest ih =>
    by_cases h : p.1 = n
    · simp [iget, h]
    · simp [iget, h, ih]

theorem iget_mem (l : List (String × Nat)) (n : String) (v : Nat)
    (h : iget l n = some v) : (n, v) ∈ l := by
  induction l with
  | nil => simp [iget] at h
  | cons p rest ih =>
    obtain ⟨p1, p2⟩ := p
    by_cases hk : p1 = n
    · simp only [iget, if_pos hk] at h
      subst hk
      simp_all
    · simp only [iget] at h
      rw [if_neg hk] at h
      exact List.mem_cons_of_mem _ (ih h)

theorem iget_isSome_of_mem (l : List (String × Nat)) (n : String) (v : Nat)
    (h : (n, v) ∈ l) : ∃ w, iget l n = some w := by
  induction l with
  | nil => simp at h
  | cons p rest ih =>
    by_cases hk : p.1 = n
    · exact ⟨p.2, by simp [iget, hk]⟩
    · rcases List.mem_cons.mp h with h | h
      · exfalso
        apply hk
        rw [← h]
      · simpa [iget, hk] using ih h

theorem mem_idel (l : List (String × Nat)) (n : String) (x : String × Nat) :
    x ∈ idel l n ↔ x ∈ l ∧ x.1 ≠ n := by
  induction l with
  | nil => simp [idel]
  | cons p rest ih =>
    by_cases h : p.1 = n
    · rw [idel, if_pos h, ih]
      simp only [List.mem_cons]
      have f1 : x = p → x.1 = n := by
        intro hx
        subst hx
        exact h
      tauto
    · rw [idel, if_neg h]
      simp only [List.mem_cons, ih]
      have f1 : x = p → x.1 ≠ n := by
        intro hx
        subst hx
        exact h
      tauto

theorem mem_iput (l : List (String × Nat)) (n : String) (v : Nat) (x : String × Nat) :
    x ∈ iput l n v ↔ x = (n, v) ∨ (x ∈ l ∧ x.1 ≠ n) := by
  rw [iput, List.mem_cons, mem_idel]

theorem iget_idel_self (l : List (String × Nat)) (n : String) :
    iget (idel l n) n = none := by
  rw [iget_eq_none]
  intro p hp
  exact ((mem_idel l n p).mp hp).2

theorem iget_iput_self (l : List (String × Nat)) (n : String) (v : Nat) :
    iget (iput l n v) n = some v := by
  simp [iput, iget]

theorem idel_names_nodup (l : List (String × Nat)) (n : String)
    (h : (l.map Prod.fst).Nodup) : ((idel l n).map Prod.fst).Nodup := by
  induction l with
  | nil => simp [idel]
  | cons p rest ih =>
    rw [List.map_cons, List.nodup_cons] at h
    by_cases hp : p.1 = n
    · rw [idel, if_pos hp]; exact ih h.2
    · rw [idel, if_neg hp, List.map_cons, List.nodup_cons]
      refine ⟨?_, ih h.2⟩
      intro hc
      apply h.1
      rw [List.mem_map] at hc
      obtain ⟨q, hq, hq1⟩ := hc
      rw [List.mem_map]
      exact ⟨q, ((mem_idel rest n q).mp hq).1, hq1⟩

theorem iput_names_nodup (l : List (String × Nat)) (n : String) (v : Nat)
    (h : (l.map Prod.fst).Nodup) : ((iput l n v).map Prod.fst).Nodup := by
  rw [iput, List.map_cons, List.nodup_cons]
  refine ⟨?_, idel_names_nodup l n h⟩
  intro hc
  rw [List.mem_map] at hc
  obtain ⟨q, hq, hq1⟩ := hc
  exact ((mem_idel l n q).mp hq).2 hq1

theorem name_unique (l : List (String × Nat)) (n : String) (e1 e2 : Nat)
    (h : (l.map Prod.fst).Nodup)
    (h1 : (n, e1) ∈ l) (h2 : (n, e2) ∈ l) : e1 = e2 := by
  induction l with
  | nil => simp at h1
  | cons p rest ih =>
    rw [List.map_cons, List.nodup_cons] at h
    rcases List.mem_cons.mp h1 with h1 | h1 <;> rcases List.mem_cons.mp h2 with h2 | h2
    · rw [Prod.mk.injEq] at h1 h2
      rw [h1.2, h2.2]
    · exfalso
      apply h.1
      rw [List.mem_map]
      refine ⟨(n, e2), h2, ?_⟩
      rw [Prod.mk.injEq] at h1
      rw [← h1.1]
    · exfalso
      apply h.1
      rw [List.mem_map]
      refine ⟨(n, e1), h1, ?_⟩
      rw [Prod.mk.injEq] at h2
      rw [← h2.1]
    · exact ih h.2 h1 h2

/-! Lemmas about derived pairs. -/

theorem mem_primaryPairs (l : List (Nat × Val)) (q : String × Nat) :
    q ∈ primaryPairs l ↔ ∃ u, (q.2, Val.user u) ∈ l ∧ u.name = q.1 := by
  rw [primaryPairs, List.mem_filterMap]
  constructor
  · intro h
    obtain ⟨p, hp, hdec⟩ := h
    obtain ⟨k, v⟩ := p
    cases v with
    | user u =>
      simp only [decodePair] at hdec
      have hq := (Option.some.inj hdec).symm
      subst hq
      exact ⟨u, hp, rfl⟩
    | corrupt => simp [decodePair] at hdec
  · intro h
    obtain ⟨u, hp, hn⟩ := h
    refine ⟨(q.2, Val.user u), hp, ?_⟩
    simp only [decodePair]
    rw [hn]

/-! Inversion lemmas for the operations. -/

theorem getUser_ok (s : Store) (id : Nat) (u : User) (h : getUser s id = Except.ok u) :
    id ≠ 0 ∧ bget s.users id = some (Val.user u) := by
  by_cases h0 : id = 0
  · simp [getUser, encodeID, h0] at h
  · refine ⟨h0, ?_⟩
    simp only [getUser, encodeID, if_neg h0] at h
    cases hb : bget s.users id with
    | none => rw [hb] at h; simp at h
    | some v =>
      rw [hb] at h
      cases v with
      | user w => simp [unmarshalUser] at h; rw [h]
      | corrupt => simp [unmarshalUser] at h

theorem getUser_eval (s : Store) (id : Nat) (h0 : id ≠ 0) :
    getUser s id = (match bget s.users id with
      | none => Except.error StoreErr.errUserNotFound
      | some v => unmarshalUser v) := by
  simp only [getUser, encodeID, if_neg h0]

theorem uniqueUserName_eval_none (s : Store) (n : String) (h : iget s.index n = none) :
    uniqueUserName s n = Except.ok () := by
  simp [uniqueUserName, lookupIndex, h, uniqueOutcome]

theorem uniqueUserName_eval_some (s : Store) (n : String) (v : Nat)
    (h : iget s.index n = some v) :
    uniqueUserName s n = Except.error StoreErr.notUniqueErr := by
  simp [uniqueUserName, lookupIndex, h, uniqueOutcome]

theorem createUser_ok (s : Store) (u : User) (s' : Store)
    (h : createUser s u = (Except.ok (), s')) :
    u.id ≠ 0 ∧ iget s.index u.name = none ∧
    s' = Store.mk (bput s.users u.id (Val.user u)) (iput s.index u.name u.id) := by
  by_cases h0 : u.id = 0
  · simp [createUser, encodeID, h0] at h
  · refine ⟨h0, ?_⟩
    simp only [createUser, encodeID, if_neg h0] at h
    cases hg : iget s.index u.name with
    | some v =>
      rw [uniqueUserName_eval_some s u.name v hg] at h
      simp at h
    | none =>
      rw [uniqueUserName_eval_none s u.name hg] at h
      simp only [marshalUser, Prod.mk.injEq] at h
      exact ⟨rfl, h.2.symm⟩

theorem deleteUser_ok (s : Store) (id : Nat) (s' : Store)
    (h : deleteUser s id = (Except.ok (), s')) :
    ∃ u, getUser s id = Except.ok u ∧
      s' = Store.mk (bdel s.users id) (idel s.index u.name) := by
  cases hg : getUser s id with
  | error e => simp [deleteUser, hg] at h
  | ok u =>
    refine ⟨u, rfl, ?_⟩
    have h0 := (getUser_ok s id u hg).1
    simp only [deleteUser, hg, encodeID, if_neg h0, Prod.mk.injEq] at h
    exact h.2.symm

theorem updateUser_ok (s : Store) (id : Nat) (upd : UserUpdate) (uRet : User) (s' : Store)
    (h : updateUser s id upd = (Except.ok uRet, s')) :
    ∃ u, getUser s id = Except.ok u ∧
      ((∃ newName, upd.name = some newName ∧ iget s.index newName = none ∧
          uRet = applyStatus (User.mk u.id newName u.status) upd ∧
          s' = Store.mk (bput s.users id (Val.user uRet))
                 (iput (idel s.index u.name) newName id)) ∨
       (upd.name = none ∧ uRet = applyStatus u upd ∧
          s' = Store.mk (bput s.users id (Val.user uRet)) s.index)) := by
  by_cases h0 : id = 0
  · simp [updateUser, encodeID, h0] at h
  · simp only [updateUser, encodeID, if_neg h0] at h
    cases hg : getUser s id with
    | error e => simp [hg] at h
    | ok u =>
      simp only [hg] at h
      refine ⟨u, rfl, ?_⟩
      cases hn : upd.name with
      | some newName =>
        simp only [hn] at h
        cases hu : iget s.index newName with
        | some v =>
          rw [uniqueUserName_eval_some s newName v hu] at h
          simp at h
        | none =>
          rw [uniqueUserName_eval_none s newName hu] at h
          simp only [marshalUser, Prod.mk.injEq, Except.ok.injEq] at h
          exact Or.inl ⟨newName, rfl, hu, h.1.symm, by rw [← h.2, h.1]⟩
      | none =>
        simp only [hn] at h
        simp only [marshalUser, Prod.mk.injEq, Except.ok.injEq] at h
        exact Or.inr ⟨rfl, h.1.symm, by rw [← h.2, h.1]⟩

/-! Preservation of well-formedness by successful operations. -/

theorem applyStatus_id (u : User) (upd : UserUpdate) : (applyStatus u upd).id = u.id := by
  cases h : upd.status <;> simp [applyStatus, h]

theorem applyStatus_name (u : User) (upd : UserUpdate) : (applyStatus u upd).name = u.name := by
  cases h : upd.status <;> simp [applyStatus, h]

theorem wf_emptyStore : WF emptyStore := by
  refine ⟨?_, ?_, ?_, ?_, ?_⟩ <;> simp [emptyStore, WF, primaryPairs]

theorem wf_createUser (s s' : Store) (u : User) (hwf : WF s)
    (hfresh : bget s.users u.id = none)
    (h : createUser s u = (Except.ok (), s')) : WF s' := by
  obtain ⟨hsort, hok, hnodup, hfwd, hbwd⟩ := hwf
  obtain ⟨h0, hgname, hs'⟩ := createUser_ok s u s' h
  subst hs'
  have hfreshkeys : ∀ p ∈ s.users, p.1 ≠ u.id := (bget_eq_none _ _).mp hfresh
  have hnames : ∀ q ∈ s.index, q.1 ≠ u.name := (iget_eq_none _ _).mp hgname
  refine ⟨?_, ?_, ?_, ?_, ?_⟩
  · exact bput_pairwise _ _ _ hsort
  · intro p hp
    rcases (mem_bput _ _ _ p hsort).mp hp with hp | ⟨hp, _⟩
    · subst hp; exact ⟨h0, rfl⟩
    · exact hok p hp
  · exact iput_names_nodup _ _ _ hnodup
  · intro q hq
    rcases (mem_iput _ _ _ q).mp hq with hq | ⟨hq, hqn⟩
    · subst hq
      rw [mem_primaryPairs]
      exact ⟨u, (mem_bput _ _ _ _ hsort).mpr (Or.inl rfl), rfl⟩
    · have hq' := hfwd q hq
      rw [mem_primaryPairs] at hq' ⊢
      obtain ⟨w, hw, hwn⟩ := hq'
      exact ⟨w, (mem_bput _ _ _ _ hsort).mpr (Or.inr ⟨hw, hfreshkeys _ hw⟩), hwn⟩
  · intro q hq
    rw [mem_primaryPairs] at hq
    obtain ⟨w, hw, hwn⟩ := hq
    rcases (mem_bput _ _ _ _ hsort).mp hw with hw | ⟨hw, hwk⟩
    · rw [Prod.mk.injEq] at hw
      have hwu : w = u := Val.user.inj hw.2
      subst hwu
      have hq : q = (w.name, w.id) := by
        obtain ⟨q1, q2⟩ := q
        simp only at hwn hw
        rw [← hwn, hw.1]
      rw [hq]
      exact (mem_iput _ _ _ _).mpr (Or.inl rfl)
    · have hqi := hbwd q ((mem_primaryPairs _ _).mpr ⟨w, hw, hwn⟩)
      exact (mem_iput _ _ _ _).mpr (Or.inr ⟨hqi, hnames q hqi⟩)

theorem wf_deleteUser (s : Store) (id : Nat) (s' : Store) (hwf : WF s)
    (h : deleteUser s id = (Except.ok (), s')) : WF s' := by
  obtain ⟨hsort, hok, hnodup, hfwd, hbwd⟩ := hwf
  obtain ⟨u, hget, hs'⟩ := deleteUser_ok s id s' h
  subst hs'
  obtain ⟨h0, hb⟩ := getUser_ok s id u hget
  have hmem : (id, Val.user u) ∈ s.users := bget_mem _ _ _ hb
  refine ⟨?_, ?_, ?_, ?_, ?_⟩
  · exact bdel_pairwise _ _ hsort
  · intro p hp
    exact hok p ((mem_bdel _ _ p).mp hp).1
  · exact idel_names_nodup _ _ hnodup
  · intro q hq
    obtain ⟨hqi, hqn⟩ := (mem_idel _ _ q).mp hq
    have hq' := hfwd q hqi
    rw [mem_primaryPairs] at hq' ⊢
    obtain ⟨w, hw, hwn⟩ := hq'
    refine ⟨w, (mem_bdel _ _ _).mpr ⟨hw, ?_⟩, hwn⟩
    intro hqk
    simp only at hqk
    rw [hqk] at hw
    have hvu := key_unique s.users id (Val.user w) (Val.user u) hsort hw hmem
    have hwu : w = u := Val.user.inj hvu
    apply hqn
    rw [← hwn, hwu]
  · intro q hq
    rw [mem_primaryPairs] at hq
    obtain ⟨w, hw, hwn⟩ := hq
    obtain ⟨hw', hwk⟩ := (mem_bdel _ _ _).mp hw
    have hqi := hbwd q ((mem_primaryPairs _ _).mpr ⟨w, hw', hwn⟩)
    refine (mem_idel _ _ _).mpr ⟨hqi, ?_⟩
    intro hq1
    have hui : (u.name, id) ∈ s.index :=
      hbwd (u.name, id) ((mem_primaryPairs _ _).mpr ⟨u, hmem, rfl⟩)
    have hq2 : q.2 = id := by
      have hq' : (u.name, q.2) ∈ s.index := by
        obtain ⟨q1, q2⟩ := q
        simp only at hq1
        rw [hq1] at hqi
        exact hqi
      exact name_unique s.index u.name q.2 id hnodup hq' hui
    exact hwk hq2

theorem wf_updateUser (s : Store) (id : Nat) (upd : UserUpdate) (uRet : User) (s' : Store)
    (hwf : WF s) (h : updateUser s id upd = (Except.ok uRet, s')) : WF s' := by
  obtain ⟨hsort, hok, hnodup, hfwd, hbwd⟩ := hwf
  obtain ⟨u, hget, hcase⟩ := updateUser_ok s id upd uRet s' h
  obtain ⟨h0, hb⟩ := getUser_ok s id u hget
  have hmem : (id, Val.user u) ∈ s.users := bget_mem _ _ _ hb
  obtain ⟨hu0, hkey⟩ : u.id ≠ 0 ∧ id = u.id := hok _ hmem
  have hui : (u.name, id) ∈ s.index :=
    hbwd (u.name, id) ((mem_primaryPairs _ _).mpr ⟨u, hmem, rfl⟩)
  rcases hcase with ⟨newName, hn, hfreshname, huRet, hs'⟩ | ⟨hn, huRet, hs'⟩
  · subst hs'
    have hRid : uRet.id = u.id := by rw [huRet, applyStatus_id]
    have hRname : uRet.name = newName := by rw [huRet, applyStatus_name]
    have hnames : ∀ q ∈ s.index, q.1 ≠ newName := (iget_eq_none _ _).mp hfreshname
    refine ⟨?_, ?_, ?_, ?_, ?_⟩
    · exact bput_pairwise _ _ _ hsort
    · intro p hp
      rcases (mem_bput _ _ _ p hsort).mp hp with hp | ⟨hp, _⟩
      · subst hp
        refine ⟨?_, ?_⟩
        · rw [hRid]; exact hu0
        · rw [hRid]; exact hkey
      · exact hok p hp
    · exact iput_names_nodup _ _ _ (idel_names_nodup _ _ hnodup)
    · intro q hq
      rcases (mem_iput _ _ _ q).mp hq with hq | ⟨hq, hqnew⟩
      · subst hq
        rw [mem_primaryPairs]
        refine ⟨uRet, (mem_bput _ _ _ _ hsort).mpr (Or.inl rfl), hRname⟩
      · obtain ⟨hqi, hqold⟩ := (mem_idel _ _ q).mp hq
        have hq' := hfwd q hqi
        rw [mem_primaryPairs] at hq' ⊢
        obtain ⟨w, hw, hwn⟩ := hq'
        refine ⟨w, (mem_bput _ _ _ _ hsort).mpr (Or.inr ⟨hw, ?_⟩), hwn⟩
        intro hqk
        simp only at hqk
        rw [hqk] at hw
        have hwu : w = u := Val.user.inj (key_unique s.users id _ _ hsort hw hmem)
        apply hqold
        rw [← hwn, hwu]
    · intro q hq
      rw [mem_primaryPairs] at hq
      obtain ⟨w, hw, hwn⟩ := hq
      rcases (mem_bput _ _ _ _ hsort).mp hw with hw | ⟨hw, hwk⟩
      · rw [Prod.mk.injEq] at hw
        have hwu : w = uRet := Val.user.inj hw.2
        subst hwu
        have hq : q = (newName, id) := by
          obtain ⟨q1, q2⟩ := q
          simp only at hwn hw
          rw [← hwn, hw.1, hRname]
        rw [hq]
        exact (mem_iput _ _ _ _).mpr (Or.inl rfl)
      · have hqi := hbwd q ((mem_primaryPairs _ _).mpr ⟨w, hw, hwn⟩)
        refine (mem_iput _ _ _ _).mpr (Or.inr ⟨(mem_idel _ _ _).mpr ⟨hqi, ?_⟩, hnames q hqi⟩)
        intro hq1
        have hq2 : q.2 = id := by
          have hq' : (u.name, q.2) ∈ s.index := by
            obtain ⟨q1, q2⟩ := q
            simp only at hq1
            rw [hq1] at hqi
            exact hqi
          exact name_unique s.index u.name q.2 id hnodup hq' hui
        exact hwk hq2
  · subst hs'
    have hRid : uRet.id = u.id := by rw [huRet, applyStatus_id]
    have hRname : uRet.name = u.name := by rw [huRet, applyStatus_name]
    refine ⟨?_, ?_, ?_, ?_, ?_⟩
    · exact bput_pairwise _ _ _ hsort
    · intro p hp
      rcases (mem_bput _ _ _ p hsort).mp hp with hp | ⟨hp, _⟩
      · subst hp
        refine ⟨?_, ?_⟩
        · rw [hRid]; exact hu0
        · rw [hRid]; exact hkey
      · exact hok p hp
    · exact hnodup
    · intro q hq
      have hq' := hfwd q hq
      rw [mem_primaryPairs] at hq' ⊢
      obtain ⟨w, hw, hwn⟩ := hq'
      by_cases hqk : q.2 = id
      · refine ⟨uRet, ?_, ?_⟩
        · rw [hqk]
          exact (mem_bput _ _ _ _ hsort).mpr (Or.inl rfl)
        · rw [hqk] at hw
          have hwu : w = u := Val.user.inj (key_unique s.users id _ _ hsort hw hmem)
          rw [hRname, ← hwn, hwu]
      · exact ⟨w, (mem_bput _ _ _ _ hsort).mpr (Or.inr ⟨hw, hqk⟩), hwn⟩
    · intro q hq
      rw [mem_primaryPairs] at hq
      obtain ⟨w, hw, hwn⟩ := hq
      rcases (mem_bput _ _ _ _ hsort).mp hw with hw | ⟨hw, hwk⟩
      · rw [Prod.mk.injEq] at hw
        have hwu : w = uRet := Val.user.inj hw.2
        subst hwu
        have hq : q = (u.name, id) := by
          obtain ⟨q1, q2⟩ := q
          simp only at hwn hw
          rw [← hwn, hw.1, hRname]
        rw [hq]
        exact hui
      · exact hbwd q ((mem_primaryPairs _ _).mpr ⟨w, hw, hwn⟩)

theorem reachableFresh_wf (s : Store) (h : ReachableFresh s) : WF s := by
  induction h with
  | init => exact wf_emptyStore
  | create s u s' hr hfresh hc ih => exact wf_createUser s s' u ih hfresh hc
  | update s id upd u s' hr hc ih => exact wf_updateUser s id upd u s' ih hc
  | delete s id s' hr hc ih => exact wf_deleteUser s id s' ih hc

/-! Lemmas about the scan loop of ListUsers. -/

theorem listScan_skip (l : List (Nat × Val)) (count usLen offset limit : Int)
    (h0 : 0 ≤ count) (hc : count ≤ offset) :
    listScan l count usLen offset limit =
      listScan (l.drop (offset - count).toNat) offset usLen offset limit := by
  induction l generalizing count with
  | nil => simp [listScan]
  | cons p rest ih =>
    by_cases heq : count = offset
    · subst heq
      simp
    · have hlt : count < offset := lt_of_le_of_ne hc heq
      have hoff : offset ≠ 0 := by omega
      rw [listScan, if_pos ⟨hoff, hlt⟩]
      rw [ih (count + 1) (by omega) (by omega)]
      have hdrop : (offset - count).toNat = (offset - (count + 1)).toNat + 1 := by omega
      rw [hdrop, List.drop_succ_cons]

theorem listScan_collect (l : List (Nat × Val)) (count usLen offset limit : Int)
    (hc : ¬(offset ≠ 0 ∧ count < offset)) (hu : usLen < limit) :
    listScan l count usLen offset limit =
      (l.filterMap decodeVal).take (limit - usLen).toNat := by
  induction l generalizing usLen with
  | nil => simp [listScan]
  | cons p rest ih =>
    obtain ⟨k, v⟩ := p
    rw [listScan, if_neg hc]
    cases v with
    | corrupt =>
      simp only [unmarshalUser]
      rw [ih usLen hu]
      simp [List.filterMap_cons, decodeVal]
    | user u =>
      simp only [unmarshalUser]
      by_cases hbr : usLen + 1 ≥ limit
      · rw [if_pos hbr]
        have h1 : (limit - usLen).toNat = 1 := by omega
        simp [List.filterMap_cons, decodeVal, h1]
      · rw [if_neg hbr]
        rw [ih (usLen + 1) (by omega)]
        have h1 : (limit - usLen).toNat = (limit - (usLen + 1)).toNat + 1 := by omega
        simp [List.filterMap_cons, decodeVal, h1]

theorem listScan_length (l : List (Nat × Val)) (count usLen offset limit : Int)
    (hu : usLen < limit) :
    usLen + ((listScan l count usLen offset limit).length : Int) ≤ limit := by
  induction l generalizing count usLen with
  | nil =>
    simp [listScan]
    omega
  | cons p rest ih =>
    obtain ⟨k, v⟩ := p
    by_cases hc : offset ≠ 0 ∧ count < offset
    · rw [listScan, if_pos hc]
      exact ih (count + 1) usLen hu
    · rw [listScan, if_neg hc]
      cases v with
      | corrupt =>
        simp only [unmarshalUser]
        exact ih count usLen hu
      | user u =>
        simp only [unmarshalUser]
        by_cases hbr : usLen + 1 ≥ limit
        · rw [if_pos hbr]
          simp only [List.length_singleton]
          omega
        · rw [if_neg hbr]
          have h2 := ih count (usLen + 1) (by omega)
          simp only [List.length_cons] at h2 ⊢
          push_cast at h2 ⊢
          omega

theorem listScan_spec (l : List (Nat × Val)) (offset limit : Int)
    (hoff : 0 ≤ offset) (hlim : 0 < limit) :
    listScan l 0 0 offset limit =
      ((l.drop offset.toNat).filterMap decodeVal).take limit.toNat := by
  rw [listScan_skip l 0 0 offset limit le_rfl hoff]
  have hc : ¬(offset ≠ 0 ∧ offset < offset) := by omega
  rw [listScan_collect _ offset 0 offset limit hc hlim]
  simp

theorem clampLimit_pos (l : Int) (h : 0 ≤ l) : 0 < clampLimit l := by
  rw [clampLimit, maxPageSize]
  split_ifs <;> omega

/-! Concrete states used to instantiate the theorems. -/

/-- A store holding one user: id 1, name "alice". -/
def oneUserStore : Store :=
  Store.mk [(1, Val.user (User.mk 1 "alice" "active"))] [("alice", 1)]

/-- A store holding two users: id 1 "alice" and id 2 "bob". -/
def twoUserStore : Store :=
  Store.mk
    [(1, Val.user (User.mk 1 "alice" "active")), (2, Val.user (User.mk 2 "bob" "active"))]
    [("alice", 1), ("bob", 2)]

/-- The state produced by creating id 1 "bob" over `oneUserStore`: the
create succeeds (the name is free), overwrites the primary entry for key
1, and leaves the stale index entry for "alice" behind. -/
def dupIdStore : Store :=
  Store.mk [(1, Val.user (User.mk 1 "bob" "active"))] [("bob", 1), ("alice", 1)]

/-- C1: the uniqueness check classifies its index lookup into exactly
three outcomes — absent means success, present means the not-unique
error — but on any other lookup failure the constructor the code invokes
is `ErrUnprocessableUser`, which builds the unprocessable-record error,
not the internal service error announced by the claim and by the code's
own comment (the outcome is still distinct from the other two). -/
theorem c1_uniqueness_check_outcomes :
    uniqueOutcome LookupResult.notFound = Except.ok () ∧
    uniqueOutcome (LookupResult.found 1) = Except.error StoreErr.notUniqueErr ∧
    uniqueOutcome (LookupResult.failure (KVErr.mk "disk read fault")) =
      Except.error StoreErr.unprocessableUserErr ∧
    errKind StoreErr.unprocessableUserErr = ErrKind.unprocessableRecord ∧
    ErrKind.unprocessableRecord ≠ ErrKind.internalService ∧
    StoreErr.unprocessableUserErr ≠ StoreErr.internalServiceErr := by
  refine ⟨rfl, rfl, rfl, rfl, by decide, by decide⟩

/-- C2 as stated is false: `CreateUser` never checks that the identifier
is absent, so two successful creates reusing one identifier (under two
free names) leave a stale index entry, and the index pair set no longer
equals the pair set derived from the primary table. -/
theorem c2_bijection_counterexample :
    ¬ (∀ s : Store, ReachableOps s →
        ∀ q : String × Nat, q ∈ s.index ↔ q ∈ primaryPairs s.users) := by
  intro hclaim
  have h1 : createUser emptyStore (User.mk 1 "alice" "active") = (Except.ok (), oneUserStore) := rfl
  have h2 : createUser oneUserStore (User.mk 1 "bob" "active") = (Except.ok (), dupIdStore) := rfl
  have hr : ReachableOps dupIdStore :=
    ReachableOps.create oneUserStore (User.mk 1 "bob" "active") dupIdStore
      (ReachableOps.create emptyStore (User.mk 1 "alice" "active") oneUserStore
        ReachableOps.init h1) h2
  have hmem : ("alice", 1) ∈ dupIdStore.index := by decide
  have hpp := (hclaim dupIdStore hr ("alice", 1)).mp hmem
  exact absurd hpp (by decide)

/-- C2 (amended): after every finite sequence of successful Create,
Update and Delete operations in which each Create was invoked with an
identifier absent from the primary table at the time of the call, the
index table's set of (name, id) pairs exactly equals the set of pairs
derivable by decoding the primary table's entries (invariant I1). -/
theorem c2_bijection_fresh_ids (s : Store) (h : ReachableFresh s) :
    ∀ q : String × Nat, q ∈ s.index ↔ q ∈ primaryPairs s.users := by
  obtain ⟨-, -, -, hfwd, hbwd⟩ := reachableFresh_wf s h
  exact fun q => ⟨hfwd q, hbwd q⟩

theorem c2_bijection_fresh_ids_witness :
    ("alice", 1) ∈ oneUserStore.index ↔ ("alice", 1) ∈ primaryPairs oneUserStore.users :=
  c2_bijection_fresh_ids oneUserStore
    (ReachableFresh.create emptyStore (User.mk 1 "alice" "active") oneUserStore
      ReachableFresh.init rfl rfl) ("alice", 1)

/-- C3: in every well-formed state in which some stored record holds a
name N, creating a record named N (with an encodable identifier) fails
with the not-unique error, and updating a different existing record with
a patch renaming it to N fails likewise; both calls return the
transaction state exactly as it was. -/
theorem c3_duplicate_name_rejected (s : Store) (eid : Nat) (w : User)
    (hwf : WF s) (hmem : (eid, Val.user w) ∈ s.users) :
    (∀ u : User, u.name = w.name → u.id ≠ 0 →
       createUser s u = (Except.error StoreErr.notUniqueErr, s)) ∧
    (∀ (id2 : Nat) (upd : UserUpdate) (u2 : User), getUser s id2 = Except.ok u2 →
       id2 ≠ eid → upd.name = some w.name →
       updateUser s id2 upd = (Except.error StoreErr.notUniqueErr, s)) := by
  obtain ⟨hsort, hok, hnodup, hfwd, hbwd⟩ := hwf
  have hpair : (w.name, eid) ∈ s.index :=
    hbwd (w.name, eid) ((mem_primaryPairs _ _).mpr ⟨w, hmem, rfl⟩)
  obtain ⟨v, hv⟩ := iget_isSome_of_mem s.index w.name eid hpair
  constructor
  · intro u hn h0
    simp only [createUser, encodeID, if_neg h0, hn,
      uniqueUserName_eval_some s w.name v hv]
  · intro id2 upd u2 hget hne hupd
    have h0 := (getUser_ok s id2 u2 hget).1
    simp only [updateUser, encodeID, if_neg h0, hget, hupd,
      uniqueUserName_eval_some s w.name v hv]

theorem c3_duplicate_name_rejected_witness :
    createUser twoUserStore (User.mk 3 "alice" "active") =
      (Except.error StoreErr.notUniqueErr, twoUserStore) ∧
    updateUser twoUserStore 2 (UserUpdate.mk (some "alice") none) =
      (Except.error StoreErr.notUniqueErr, twoUserStore) := by
  have h := c3_duplicate_name_rejected twoUserStore 1 (User.mk 1 "alice" "active")
    (by decide) (by decide)
  exact ⟨h.1 (User.mk 3 "alice" "active") rfl (by decide),
    h.2 2 (UserUpdate.mk (some "alice") none) (User.mk 2 "bob" "active") rfl (by decide) rfl⟩

/-- C10: updating a stored record with a patch whose name field is set to
the record's own current name fails with the not-unique error — the
uniqueness check finds the record's own index entry — and the call
returns the transaction state exactly as it was. -/
theorem c10_self_rename_not_unique (s : Store) (id : Nat) (u : User) (upd : UserUpdate)
    (hwf : WF s) (hget : getUser s id = Except.ok u) (hname : upd.name = some u.name) :
    updateUser s id upd = (Except.error StoreErr.notUniqueErr, s) := by
  obtain ⟨hsort, hok, hnodup, hfwd, hbwd⟩ := hwf
  obtain ⟨h0, hb⟩ := getUser_ok s id u hget
  have hmem : (id, Val.user u) ∈ s.users := bget_mem _ _ _ hb
  have hpair : (u.name, id) ∈ s.index :=
    hbwd (u.name, id) ((mem_primaryPairs _ _).mpr ⟨u, hmem, rfl⟩)
  obtain ⟨v, hv⟩ := iget_isSome_of_mem s.index u.name id hpair
  simp only [updateUser, encodeID, if_neg h0, hget, hname,
    uniqueUserName_eval_some s u.name v hv]

theorem c10_self_rename_not_unique_witness :
    updateUser oneUserStore 1 (UserUpdate.mk (some "alice") (some "inactive")) =
      (Except.error StoreErr.notUniqueErr, oneUserStore) :=
  c10_self_rename_not_unique oneUserStore 1 (User.mk 1 "alice" "active")
    (UserUpdate.mk (some "alice") (some "inactive")) (by decide) rfl rfl

/-- C4: creating a valid record whose name is free and whose identifier
is absent succeeds, and both a GetUser on its identifier and a
GetUserByName on its name then return a record equal in all fields to
the created one. -/
theorem c4_create_get_roundtrip (s : Store) (u : User) (hid : u.id ≠ 0)
    (hname : iget s.index u.name = none) (habs : bget s.users u.id = none) :
    (createUser s u).1 = Except.ok () ∧
    getUser (createUser s u).2 u.id = Except.ok u ∧
    getUserByName (createUser s u).2 u.name = Except.ok u := by
  have hc : createUser s u =
      (Except.ok (), Store.mk (bput s.users u.id (Val.user u)) (iput s.index u.name u.id)) := by
    simp only [createUser, encodeID, if_neg hid,
      uniqueUserName_eval_none s u.name hname, marshalUser]
  rw [hc]
  have hget : getUser (Store.mk (bput s.users u.id (Val.user u))
      (iput s.index u.name u.id)) u.id = Except.ok u := by
    simp only [getUser, encodeID, if_neg hid]
    rw [bget_bput]
    simp [unmarshalUser]
  refine ⟨rfl, hget, ?_⟩
  simp only [getUserByName, iget_iput_self]
  simp only [decodeID, if_neg hid]
  exact hget

theorem c4_create_get_roundtrip_witness :
    (createUser twoUserStore (User.mk 3 "carol" "active")).1 = Except.ok () ∧
    getUser (createUser twoUserStore (User.mk 3 "carol" "active")).2 3 =
      Except.ok (User.mk 3 "carol" "active") ∧
    getUserByName (createUser twoUserStore (User.mk 3 "carol" "active")).2 "carol" =
      Except.ok (User.mk 3 "carol" "active") :=
  c4_create_get_roundtrip twoUserStore (User.mk 3 "carol" "active")
    (by decide) (by decide) (by decide)

/-- C5: after a successful DeleteUser on a stored record, GetUser on its
identifier fails with the not-found error and GetUserByName on its old
name fails with the not-found error. -/
theorem c5_delete_then_not_found (s : Store) (id : Nat) (u : User) (s' : Store)
    (hget : getUser s id = Except.ok u) (hdel : deleteUser s id = (Except.ok (), s')) :
    getUser s' id = Except.error StoreErr.errUserNotFound ∧
    getUserByName s' u.name = Except.error StoreErr.errUserNotFound := by
  obtain ⟨u', hget', hs'⟩ := deleteUser_ok s id s' hdel
  rw [hget] at hget'
  have huu : u' = u := (Except.ok.inj hget').symm
  subst huu
  subst hs'
  have h0 := (getUser_ok s id u' hget).1
  constructor
  · simp only [getUser, encodeID, if_neg h0]
    rw [bget_bdel_self]
  · simp only [getUserByName, iget_idel_self]

theorem c5_delete_then_not_found_witness :
    getUser (Store.mk [(2, Val.user (User.mk 2 "bob" "active"))] [("bob", 2)]) 1 =
      Except.error StoreErr.errUserNotFound ∧
    getUserByName (Store.mk [(2, Val.user (User.mk 2 "bob" "active"))] [("bob", 2)]) "alice" =
      Except.error StoreErr.errUserNotFound :=
  c5_delete_then_not_found twoUserStore 1 (User.mk 1 "alice" "active")
    (Store.mk [(2, Val.user (User.mk 2 "bob" "active"))] [("bob", 2)]) rfl rfl

/-- C6: a supplied limit L with 0 < L and L at most the maximum page size
bounds the returned slice by L records; a supplied limit of zero (the
unset field value) or above the maximum page size makes the call behave
exactly as if the limit were the maximum page size, returning at most
that many records. -/
theorem c6_limit_clamping (s : Store) (o : FindOptions) :
    (0 < o.limit → o.limit ≤ maxPageSize →
       ((listUsers s [o]).1.length : Int) ≤ o.limit) ∧
    ((o.limit = 0 ∨ maxPageSize < o.limit) →
       listUsers s [o] = listUsers s [FindOptions.mk maxPageSize o.offset] ∧
       ((listUsers s [o]).1.length : Int) ≤ maxPageSize) := by
  constructor
  · intro h1 h2
    have hcl : clampLimit o.limit = o.limit := by
      rw [clampLimit, if_neg]
      push_neg
      constructor <;> omega
    have hlen := listScan_length s.users 0 0 o.offset o.limit (by omega)
    simp only [listUsers, listUsersCursor]
    rw [hcl]
    omega
  · intro hcase
    have hcl : clampLimit o.limit = maxPageSize := by
      rw [clampLimit, if_pos]
      rcases hcase with h | h
      · exact Or.inr h
      · exact Or.inl h
    have hclmax : clampLimit maxPageSize = maxPageSize := by
      rw [clampLimit, if_neg]
      decide
    constructor
    · simp only [listUsers, listUsersCursor]
      rw [hcl, hclmax]
    · have hlen := listScan_length s.users 0 0 o.offset maxPageSize
        (by rw [maxPageSize]; omega)
      simp only [listUsers, listUsersCursor]
      rw [hcl]
      omega

theorem c6_limit_clamping_witness :
    ((listUsers twoUserStore [FindOptions.mk 1 0]).1.length : Int) ≤ 1 ∧
    listUsers twoUserStore [FindOptions.mk 0 0] =
      listUsers twoUserStore [FindOptions.mk maxPageSize 0] :=
  ⟨(c6_limit_clamping twoUserStore (FindOptions.mk 1 0)).1 (by decide) (by decide),
   ((c6_limit_clamping twoUserStore (FindOptions.mk 0 0)).2 (Or.inl rfl)).1⟩

/-- C7: with the primary bucket's keys in strictly ascending order, the
scan of ListUsers visits entries in that order, skips exactly the first
`offset` entries, and returns the decodable records from position
`offset` on, up to the clamped limit. -/
theorem c7_offset_skip_order (s : Store) (o : FindOptions)
    (hsorted : s.users.Pairwise (fun p q => p.1 < q.1))
    (hoff : 0 ≤ o.offset) (hlim : 0 ≤ o.limit) :
    (listUsers s [o]).1 =
      ((s.users.drop o.offset.toNat).filterMap decodeVal).take (clampLimit o.limit).toNat := by
  simp only [listUsers, listUsersCursor]
  exact listScan_spec s.users o.offset (clampLimit o.limit) hoff (clampLimit_pos o.limit hlim)

theorem c7_offset_skip_order_witness :
    (listUsers twoUserStore [FindOptions.mk 1 1]).1 =
      ((twoUserStore.users.drop (1 : Int).toNat).filterMap decodeVal).take
        (clampLimit 1).toNat :=
  c7_offset_skip_order twoUserStore (FindOptions.mk 1 1) (by decide) (by decide) (by decide)

/-- C8: during a scan, entries whose payload fails to decode are silently
dropped (the result is the decodable records of the visited range, with
no error produced by them), and the cursor's terminal error is returned
together with the collected records, not in place of them. -/
theorem c8_corrupt_skip_error_alongside (entries : List (Nat × Val)) (cerr : Option KVErr)
    (o : FindOptions) (hoff : 0 ≤ o.offset) (hlim : 0 ≤ o.limit) :
    listUsersCursor entries cerr [o] =
      (((entries.drop o.offset.toNat).filterMap decodeVal).take (clampLimit o.limit).toNat,
        cerr) := by
  simp only [listUsersCursor]
  rw [listScan_spec entries o.offset (clampLimit o.limit) hoff (clampLimit_pos o.limit hlim)]

theorem c8_corrupt_skip_error_alongside_witness :
    listUsersCursor [(1, Val.corrupt), (2, Val.user (User.mk 2 "bob" "active"))]
      (some (KVErr.mk "io fault")) [FindOptions.mk 10 0] =
      (((([(1, Val.corrupt), (2, Val.user (User.mk 2 "bob" "active"))].drop
            (0 : Int).toNat).filterMap decodeVal).take (clampLimit 10).toNat),
        some (KVErr.mk "io fault")) :=
  c8_corrupt_skip_error_alongside
    [(1, Val.corrupt), (2, Val.user (User.mk 2 "bob" "active"))]
    (some (KVErr.mk "io fault")) (FindOptions.mk 10 0) (by decide) (by decide)

/-- C9: for an identifier whose encoding fails, UpdateUser fails before
touching any table entry — it returns the raw encoding error and the
unchanged state, on every state alike — and that failure is the same
invalid-identifier condition that GetUser reports for the identifier. -/
theorem c9_update_encode_failure_kind (s : Store) (id : Nat) (upd : UserUpdate) (e : StoreErr)
    (henc : encodeID id = Except.error e) :
    updateUser s id upd = (Except.error e, s) ∧
    getUser s id = Except.error StoreErr.invalidUserIDErr ∧
    errKind e = ErrKind.invalidIdentifier ∧
    errKind StoreErr.invalidUserIDErr = ErrKind.invalidIdentifier := by
  have h0 : id = 0 := by
    by_contra hne
    simp [encodeID, hne] at henc
  subst h0
  have h2 : (Except.error StoreErr.errInvalidID : Except StoreErr Nat) = Except.error e := henc
  have he : e = StoreErr.errInvalidID := (Except.error.inj h2).symm
  subst he
  refine ⟨?_, ?_, rfl, rfl⟩
  · simp [updateUser, encodeID]
  · simp [getUser, encodeID]

theorem c9_update_encode_failure_kind_witness :
    updateUser twoUserStore 0 (UserUpdate.mk none none) =
      (Except.error StoreErr.errInvalidID, twoUserStore) ∧
    getUser twoUserStore 0 = Except.error StoreErr.invalidUserIDErr ∧
    errKind StoreErr.errInvalidID = ErrKind.invalidIdentifier ∧
    errKind StoreErr.invalidUserIDErr = ErrKind.invalidIdentifier :=
  c9_update_encode_failure_kind twoUserStore 0 (UserUpdate.mk none none)
    StoreErr.errInvalidID rfl
